import Mathlib

/-!
Verification of the batch questionnaire extractor
(src/extract_questionnaires.py) against its specification.

The script enumerates the entries of a source directory whose names end in
".docx", opens each as a structured document, extracts stripped paragraph
texts and table rows, and writes one text file per successfully processed
document, printing one status line per entry and a final summary line.

Strings are modelled as lists of characters (`Str`).  Python string
operations used by the script (`str.replace`, `str.strip`, `str.join`,
`str.endswith`) are embedded below with their Python semantics.
-/

namespace StatQ

/-- Python strings, modelled as lists of characters. -/
abbrev Str := List Char

/-- Character list of a Lean string literal. -/
def lit (s : String) : Str := s.data

/-- The whitespace characters stripped by Python `str.strip()` (the ASCII
whitespace set; the inputs of interest contain no exotic Unicode spaces). -/
def isPySpace (c : Char) : Bool :=
  c = ' ' || c = '\t' || c = '\n' || c = '\x0d' || c = '\x0b' || c = '\x0c'

/-- Python `s.strip()`: remove leading and trailing whitespace. -/
def pyStrip (s : Str) : Str :=
  (((s.dropWhile isPySpace).reverse).dropWhile isPySpace).reverse

/-- Fuel-driven worker for Python `str.replace`: scan left to right, and at
each position replace a (non-overlapping) occurrence of `pat` by `rep`.
The fuel is only a termination device; `s.length` fuel always suffices for
a non-empty pattern because each step consumes at least one character. -/
def pyReplaceFuel (pat rep : Str) : Nat → Str → Str
  | 0, s => s
  | _ + 1, [] => []
  | fuel + 1, c :: rest =>
    if pat.isPrefixOf (c :: rest) then
      rep ++ pyReplaceFuel pat rep fuel (List.drop pat.length (c :: rest))
    else
      c :: pyReplaceFuel pat rep fuel rest

/-- Python `s.replace(pat, rep)` for a non-empty pattern: replace every
non-overlapping occurrence of `pat` in `s`, scanning left to right. -/
def pyReplace (pat rep s : Str) : Str :=
  pyReplaceFuel pat rep s.length s

/-- The document-format suffix ".docx" used by the selection filter and the
filename derivation (line 11 and line 35 of the source). -/
def docxSuffix : Str := lit ".docx"

/-- The plain-text suffix ".txt". -/
def txtSuffix : Str := lit ".txt"

/-- Line 35 of the source: `output_filename = docx_file.replace(".docx", ".txt")`. -/
def output_filename (docx_file : Str) : Str :=
  pyReplace docxSuffix txtSuffix docx_file

/-- A parsed document as the script consumes it: an ordered sequence of
paragraph texts and an ordered sequence of tables, each an ordered sequence
of rows, each an ordered sequence of cell texts. -/
structure Document where
  paragraphs : List Str
  tables : List (List (List Str))
  deriving DecidableEq

/-- Lines 20 to 23 of the source: collect the stripped text of every
paragraph whose stripped text is non-empty, via repeated `append`. -/
def full_text (doc : Document) : List Str :=
  doc.paragraphs.foldl
    (fun acc para => if pyStrip para ≠ [] then acc ++ [pyStrip para] else acc) []

/-- Lines 26 to 32 of the source: for every table, for every row, strip each
cell text, join the cells of the row with " | ", and append the row line. -/
def tables_text (doc : Document) : List Str :=
  doc.tables.foldl
    (fun acc table =>
      table.foldl
        (fun acc2 row =>
          acc2 ++ [List.intercalate (lit " | ")
            (row.foldl (fun rt cell => rt ++ [pyStrip cell]) [])])
        acc)
    []

/-- The four strings passed to `f.write` in lines 39 to 42 of the source,
in order. -/
def segments (doc : Document) : List Str :=
  [lit "=== PARAGRAPHS ===\n",
   List.intercalate (lit "\n") (full_text doc),
   lit "\n\n=== TABLES ===\n",
   List.intercalate (lit "\n") (tables_text doc)]

/-- The full content of the output file for a successfully processed
document: the concatenation of the four written segments. -/
def output_content (doc : Document) : Str :=
  (segments doc).flatten

/-!
The batch loop (lines 8 to 49 of the source).

A directory entry is modelled together with the behaviour the environment
gives it during this run: the outcome of `docx.Document(file_path)` (line
17), and, when parsing succeeds, whether some `f.write` call in lines 39
to 42 raises a filesystem error.  `writeFail = some (k, msg)` means the
exception with description `msg` is raised during the write of segment
`k` (counting from 0), after the first `k` segments have been written;
`open(output_path, "w")` has already created (or truncated) the output
file at that point.  The `try` block of the source spans lines 16 to 47,
so it encloses both the parse and the whole write block.
-/

instance : DecidableEq (Except Str Document) := fun
  | .error a, .error b =>
    if h : a = b then .isTrue (by rw [h]) else .isFalse (by simp [h])
  | .error _, .ok _ => .isFalse (by simp)
  | .ok _, .error _ => .isFalse (by simp)
  | .ok a, .ok b =>
    if h : a = b then .isTrue (by rw [h]) else .isFalse (by simp [h])

/-- A directory entry together with the outcome the environment gives its
processing: the result of opening it as a document, and an optional
failure point inside the output-write block. -/
structure Entry where
  name : Str
  parse : Except Str Document
  writeFail : Option (Nat × Str)
  deriving DecidableEq

/-- The console line printed on line 44 of the source. -/
def okLine (name : Str) : Str :=
  lit "[OK] Extracted: " ++ name

/-- The console line printed on line 47 of the source. -/
def errLine (name msg : Str) : Str :=
  lit "[ERROR] Error extracting " ++ name ++ lit ": " ++ msg

/-- The final line printed on line 49 of the source. -/
def summaryLine (dest : Str) : Str :=
  lit "\nAll extracted files saved to: " ++ dest

/-- The observable state of one run: the files of the destination directory
(keyed by output filename, later writes overwriting earlier ones) and the
console lines printed so far, in order. -/
structure RunState where
  files : Str → Option Str
  console : List Str

/-- The empty destination directory and console. -/
def initState : RunState := ⟨fun _ => none, []⟩

/-- Writing (creating or overwriting) one file in the destination
directory. -/
def writeFile (n c : Str) (fs : Str → Option Str) : Str → Option Str :=
  fun m => if m = n then some c else fs m

/-- One iteration of the loop in lines 13 to 47 of the source: the whole
body sits inside `try`, so both a parse failure and a write failure are
caught and reported by the `except` clause; a write failure leaves the
output file holding the segments written before the exception. -/
def processEntry (st : RunState) (e : Entry) : RunState :=
  match e.parse with
  | .error msg =>
    { st with console := st.console ++ [errLine e.name msg] }
  | .ok doc =>
    match e.writeFail with
    | none =>
      { files := writeFile (output_filename e.name) (output_content doc) st.files,
        console := st.console ++ [okLine e.name] }
    | some (k, msg) =>
      { files := writeFile (output_filename e.name)
          (((segments doc).take k).flatten) st.files,
        console := st.console ++ [errLine e.name msg] }

/-- The loop over the selected entries. -/
def processBatch (entries : List Entry) (st : RunState) : RunState :=
  entries.foldl processEntry st

/-- Line 11 of the source: keep exactly the entries whose name ends with
".docx" (Python `str.endswith`, case sensitive). -/
def docx_files (listing : List Entry) : List Entry :=
  listing.filter (fun e => docxSuffix.isSuffixOf e.name)

/-- A whole run of the script from a given starting state: select the
".docx" entries, process them in listing order, then print the summary
line. -/
def runFrom (listing : List Entry) (dest : Str) (st : RunState) : RunState :=
  let final := processBatch (docx_files listing) st
  { final with console := final.console ++ [summaryLine dest] }

/-- A run of the script on a fresh destination directory. -/
def run (listing : List Entry) (dest : Str) : RunState :=
  runFrom listing dest initState

/-- The pattern `pat` occurs in `s` only as its trailing suffix: `s` ends
with `pat` and no position of `s` other than the final one starts an
occurrence. -/
def onlyTrailing (pat s : Str) : Prop :=
  pat.isSuffixOf s = true ∧
  ∀ i, i < s.length → pat.isPrefixOf (s.drop i) = true → i = s.length - pat.length

instance (pat s : Str) : Decidable (onlyTrailing pat s) := by
  unfold onlyTrailing; infer_instance

/-- The single console line an entry contributes, as a function of the
entry alone. -/
def statusLine (e : Entry) : Str :=
  match e.parse with
  | .error msg => errLine e.name msg
  | .ok _ =>
    match e.writeFail with
    | none => okLine e.name
    | some (_, msg) => errLine e.name msg

/-- The write an entry performs, if any: the derived filename paired with
either the full content or the prefix flushed before a write failure. -/
def entryWrite (e : Entry) : Option (Str × Str) :=
  match e.parse with
  | .error _ => none
  | .ok doc =>
    some (output_filename e.name,
      match e.writeFail with
      | none => output_content doc
      | some (k, _) => ((segments doc).take k).flatten)

/-- Last-write-wins lookup in a chronological list of writes. -/
def lookupLast (l : List (Str × Str)) (n : Str) : Option Str :=
  match l with
  | [] => none
  | (k, v) :: rest =>
    match lookupLast rest n with
    | some c => some c
    | none => if k = n then some v else none

/-- A console line reporting the outcome of one entry: it starts with the
tag of line 44 or of line 47 of the source. -/
def isStatusLine (l : Str) : Bool :=
  (lit "[OK]").isPrefixOf l || (lit "[ERROR]").isPrefixOf l

/-!
Theory of `pyReplace`.  Python `str.replace` substitutes every
non-overlapping occurrence of the pattern, not only a trailing suffix; the
following lemmas characterise its behaviour on names in which the pattern
occurs only as the trailing suffix.
-/

theorem pyReplaceFuel_nil (pat rep : Str) (fuel : Nat) :
    pyReplaceFuel pat rep fuel [] = [] := by
  cases fuel <;> rfl

theorem isPrefixOf_append_self (l r : Str) : l.isPrefixOf (l ++ r) = true := by
  induction l with
  | nil => simp
  | cons c t ih => simp [List.isPrefixOf, ih]

theorem isPrefixOf_self (l : Str) : l.isPrefixOf l = true := by
  have h := isPrefixOf_append_self l []
  rwa [List.append_nil] at h

/-- Replacing a pattern that occurs only at the very end of the scanned
list substitutes exactly that occurrence. -/
theorem pyReplaceFuel_trailing (pat rep : Str) (hpat : pat ≠ []) (ys : Str) :
    ∀ fuel : Nat, (ys ++ pat).length ≤ fuel →
      (∀ i, i < ys.length → ¬ pat.isPrefixOf ((ys ++ pat).drop i) = true) →
      pyReplaceFuel pat rep fuel (ys ++ pat) = ys ++ rep := by
  induction ys with
  | nil =>
    intro fuel hfuel _
    have hlen : 0 < pat.length := List.length_pos.mpr hpat
    obtain ⟨f, rfl⟩ : ∃ f, fuel = f + 1 := ⟨fuel - 1, by simp at hfuel; omega⟩
    obtain ⟨c, pt, rfl⟩ := List.exists_cons_of_ne_nil hpat
    simp only [List.nil_append, pyReplaceFuel, isPrefixOf_self, if_true]
    rw [List.drop_length, pyReplaceFuel_nil, List.append_nil]
  | cons c ys' ih =>
    intro fuel hfuel hocc
    obtain ⟨f, rfl⟩ : ∃ f, fuel = f + 1 := ⟨fuel - 1, by simp at hfuel; omega⟩
    have hnp : ¬ pat.isPrefixOf (c :: (ys' ++ pat)) = true := by
      have h0 := hocc 0 (by simp)
      simpa using h0
    rw [List.cons_append]
    simp only [pyReplaceFuel, if_neg hnp]
    have hys : pyReplaceFuel pat rep f (ys' ++ pat) = ys' ++ rep := by
      apply ih f
      · simp at hfuel ⊢; omega
      · intro i hi hpre
        have hi1 := hocc (i + 1) (by simp; omega)
        rw [List.cons_append, List.drop_succ_cons] at hi1
        exact hi1 hpre
    rw [hys, List.cons_append]

/-- Applying `pyReplace` to a list whose only occurrence of the pattern is
the trailing suffix replaces exactly that suffix. -/
theorem pyReplace_trailing (pat rep ys : Str) (hpat : pat ≠ [])
    (hocc : ∀ i, i < ys.length → ¬ pat.isPrefixOf ((ys ++ pat).drop i) = true) :
    pyReplace pat rep (ys ++ pat) = ys ++ rep :=
  pyReplaceFuel_trailing pat rep hpat ys _ (Nat.le_refl _) hocc

/-- On a name containing ".docx" only as its trailing suffix, line 35 of
the source behaves as a trailing-suffix replacement. -/
theorem output_filename_of_onlyTrailing (s : Str)
    (h : onlyTrailing docxSuffix s) :
    output_filename s = s.take (s.length - docxSuffix.length) ++ txtSuffix := by
  obtain ⟨hsuf, huniq⟩ := h
  obtain ⟨ys, rfl⟩ : ∃ t, t ++ docxSuffix = s :=
    List.isSuffixOf_iff_suffix.mp hsuf
  have hdl : docxSuffix.length = 5 := by decide
  have htake :
      (ys ++ docxSuffix).take ((ys ++ docxSuffix).length - docxSuffix.length)
        = ys := by
    apply List.take_left'
    simp [hdl]
  rw [htake]
  apply pyReplace_trailing _ _ _ (by decide)
  intro i hi hpre
  have hilt : i < (ys ++ docxSuffix).length := by simp [hdl]; omega
  have := huniq i hilt hpre
  simp [hdl] at this
  omega

/-!
Characterisations of the accumulator loops of the source as `map`,
`filter` and `flatten`, and of the batch loop as one status line per
selected entry plus a last-write-wins file store.
-/

theorem foldl_append_singleton {α β : Type} (f : α → β) :
    ∀ (l : List α) (acc : List β),
      l.foldl (fun a x => a ++ [f x]) acc = acc ++ l.map f := by
  intro l
  induction l with
  | nil => simp
  | cons x xs ih => intro acc; simp [ih, List.append_assoc]

theorem full_text_loop (l : List Str) (acc : List Str) :
    l.foldl (fun a para => if pyStrip para ≠ [] then a ++ [pyStrip para] else a) acc
      = acc ++ (l.map pyStrip).filter (fun p => !p.isEmpty) := by
  induction l generalizing acc with
  | nil => simp
  | cons x xs ih =>
    rw [List.foldl_cons]
    by_cases h : pyStrip x = []
    · rw [if_neg (by simp [h]), ih]
      simp [List.filter_cons, h]
    · rw [if_pos h, ih]
      simp [List.filter_cons, List.isEmpty_iff, h, List.append_assoc]

/-- Lines 20 to 23 of the source compute the stripped paragraphs with the
whitespace-only ones filtered out, in order. -/
theorem full_text_eq (doc : Document) :
    full_text doc = (doc.paragraphs.map pyStrip).filter (fun p => !p.isEmpty) := by
  have h := full_text_loop doc.paragraphs []
  simpa [full_text] using h

/-- Lines 26 to 32 of the source compute, over the concatenation of all
tables, one row-line per row: the stripped cells joined by " | ". -/
theorem tables_text_eq (doc : Document) :
    tables_text doc
      = doc.tables.flatten.map
          (fun row => List.intercalate (lit " | ") (row.map pyStrip)) := by
  have hrow : ∀ row : List Str,
      row.foldl (fun rt cell => rt ++ [pyStrip cell]) [] = row.map pyStrip := by
    intro row
    simpa using foldl_append_singleton pyStrip row []
  have htab : ∀ (table : List (List Str)) (acc : List Str),
      table.foldl
        (fun acc2 row =>
          acc2 ++ [List.intercalate (lit " | ")
            (row.foldl (fun rt cell => rt ++ [pyStrip cell]) [])]) acc
        = acc ++ table.map
            (fun row => List.intercalate (lit " | ") (row.map pyStrip)) := by
    intro table
    induction table with
    | nil => simp
    | cons r rs ih =>
      intro acc
      rw [List.foldl_cons, ih]
      simp [hrow, List.append_assoc]
  have houter : ∀ (L : List (List (List Str))) (acc : List Str),
      L.foldl
        (fun acc table =>
          table.foldl
            (fun acc2 row =>
              acc2 ++ [List.intercalate (lit " | ")
                (row.foldl (fun rt cell => rt ++ [pyStrip cell]) [])]) acc) acc
        = acc ++ (L.map (fun table => table.map
            (fun row => List.intercalate (lit " | ") (row.map pyStrip)))).flatten := by
    intro L
    induction L with
    | nil => simp
    | cons t ts ih =>
      intro acc
      rw [List.foldl_cons, ih, htab]
      simp [List.append_assoc]
  have h := houter doc.tables []
  simp only [tables_text, h, List.nil_append]
  rw [List.map_flatten]

theorem processEntry_console (st : RunState) (e : Entry) :
    (processEntry st e).console = st.console ++ [statusLine e] := by
  rcases e with ⟨name, parse, wf⟩
  cases parse with
  | error msg => rfl
  | ok doc =>
    cases wf with
    | none => rfl
    | some p => rcases p with ⟨k, msg⟩; rfl

/-- Every iteration of the loop appends exactly one status line, whatever
the starting state. -/
theorem processBatch_console (es : List Entry) (st : RunState) :
    (processBatch es st).console = st.console ++ es.map statusLine := by
  induction es generalizing st with
  | nil => simp [processBatch]
  | cons e es ih =>
    show (processBatch es (processEntry st e)).console = _
    rw [ih, processEntry_console, List.map_cons, List.append_assoc,
      List.cons_append, List.nil_append]

theorem processBatch_append_eq (es₁ es₂ : List Entry) (st : RunState) :
    processBatch (es₁ ++ es₂) st = processBatch es₂ (processBatch es₁ st) := by
  simp [processBatch, List.foldl_append]

theorem processEntry_files_congr (s₁ s₂ : RunState) (e : Entry)
    (h : s₁.files = s₂.files) :
    (processEntry s₁ e).files = (processEntry s₂ e).files := by
  rcases e with ⟨name, parse, wf⟩
  cases parse with
  | error msg => simpa [processEntry] using h
  | ok doc =>
    cases wf with
    | none => simp [processEntry, h]
    | some p => rcases p with ⟨k, msg⟩; simp [processEntry, h]

/-- The files written by the rest of the batch depend only on the files
component of the state, not on the console. -/
theorem processBatch_files_congr (es : List Entry) (s₁ s₂ : RunState)
    (h : s₁.files = s₂.files) :
    (processBatch es s₁).files = (processBatch es s₂).files := by
  induction es generalizing s₁ s₂ with
  | nil => simpa [processBatch] using h
  | cons e es ih =>
    show (processBatch es (processEntry s₁ e)).files = _
    exact ih _ _ (processEntry_files_congr _ _ _ h)

/-- The file store after a batch is the last-write-wins view of the writes
of its entries, over the starting store. -/
theorem processBatch_files (es : List Entry) (st : RunState) (n : Str) :
    (processBatch es st).files n =
      match lookupLast (es.filterMap entryWrite) n with
      | some c => some c
      | none => st.files n := by
  induction es generalizing st with
  | nil => simp [processBatch, lookupLast]
  | cons e es ih =>
    show (processBatch es (processEntry st e)).files n = _
    rw [ih]
    rcases e with ⟨name, parse, wf⟩
    cases parse with
    | error msg =>
      simp [entryWrite, processEntry]
    | ok doc =>
      cases wf with
      | none =>
        simp only [entryWrite, List.filterMap_cons, lookupLast]
        cases h : lookupLast (es.filterMap entryWrite) n with
        | some c => simp
        | none =>
          simp only [processEntry, writeFile]
          by_cases hn : n = output_filename name
          · simp [hn]
          · simp [hn, Ne.symm hn]
      | some p =>
        rcases p with ⟨k, msg⟩
        simp only [entryWrite, List.filterMap_cons, lookupLast]
        cases h : lookupLast (es.filterMap entryWrite) n with
        | some c => simp
        | none =>
          simp only [processEntry, writeFile]
          by_cases hn : n = output_filename name
          · simp [hn]
          · simp [hn, Ne.symm hn]

/-!
The claims.
-/

/-- C1 counterexample: the claim says the output filename is derived by
replacing only the trailing ".docx", so that "my.docx.docx" yields
"my.docx.txt".  Line 35 of the source uses Python str.replace, which
substitutes every occurrence: the selected name "my.docx.docx" yields
"my.txt.txt", not "my.docx.txt". -/
theorem c1_trailing_replacement_counterexample :
    docxSuffix.isSuffixOf (lit "my.docx.docx") = true
    ∧ output_filename (lit "my.docx.docx") = lit "my.txt.txt"
    ∧ output_filename (lit "my.docx.docx") ≠ lit "my.docx.txt" := by
  decide

/-- C1 (amended): the output filename is derived by replacing every
non-overlapping occurrence of ".docx" with ".txt"; on a name in which
".docx" occurs only as the trailing suffix this coincides with
trailing-suffix replacement, so "Survey1.docx" yields "Survey1.txt",
while "my.docx.docx" yields "my.txt.txt". -/
theorem c1_output_filename_replace_all (name : Str)
    (h : onlyTrailing docxSuffix name) :
    output_filename name
      = name.take (name.length - docxSuffix.length) ++ txtSuffix
    ∧ output_filename (lit "Survey1.docx") = lit "Survey1.txt"
    ∧ output_filename (lit "my.docx.docx") = lit "my.txt.txt" :=
  ⟨output_filename_of_onlyTrailing name h, by decide, by decide⟩

/-- C1 witness: the amended statement at the concrete name
"Survey1.docx". -/
theorem c1_output_filename_replace_all_witness :
    output_filename (lit "Survey1.docx")
      = (lit "Survey1.docx").take
          ((lit "Survey1.docx").length - docxSuffix.length) ++ txtSuffix :=
  (c1_output_filename_replace_all (lit "Survey1.docx") (by decide)).1

/-- C3 counterexample: the claim says the filename derivation is injective
over selected entries.  The distinct selected names "a.txt.docx" and
"a.docx.docx" both derive "a.txt.txt" under the replace-all semantics of
line 35 of the source. -/
theorem c3_injectivity_counterexample :
    docxSuffix.isSuffixOf (lit "a.txt.docx") = true
    ∧ docxSuffix.isSuffixOf (lit "a.docx.docx") = true
    ∧ lit "a.txt.docx" ≠ lit "a.docx.docx"
    ∧ output_filename (lit "a.txt.docx") = output_filename (lit "a.docx.docx") := by
  decide

/-- C3 (amended): the filename derivation is injective over selected
entries whose names contain ".docx" only as the trailing suffix. -/
theorem c3_output_filename_injective (s₁ s₂ : Str)
    (h₁ : onlyTrailing docxSuffix s₁) (h₂ : onlyTrailing docxSuffix s₂)
    (he : output_filename s₁ = output_filename s₂) : s₁ = s₂ := by
  obtain ⟨ys₁, rfl⟩ : ∃ t, t ++ docxSuffix = s₁ :=
    List.isSuffixOf_iff_suffix.mp h₁.1
  obtain ⟨ys₂, rfl⟩ : ∃ t, t ++ docxSuffix = s₂ :=
    List.isSuffixOf_iff_suffix.mp h₂.1
  rw [output_filename_of_onlyTrailing _ h₁,
    output_filename_of_onlyTrailing _ h₂] at he
  rw [List.take_left' (by simp), List.take_left' (by simp)] at he
  rw [List.append_cancel_right he]

/-- C3 witness: the amended statement at a concrete selected name. -/
theorem c3_output_filename_injective_witness :
    lit "Survey1.docx" = lit "Survey1.docx" :=
  c3_output_filename_injective (lit "Survey1.docx") (lit "Survey1.docx")
    (by decide) (by decide) (by decide)

/-- C2 counterexample: the claim says a per-file failure always occurs
before any output write begins, so the failing file is never created, and
that a filesystem failure during the write is not caught by the per-file
guard.  In the source the try block (lines 16 to 47) encloses the write
block (lines 38 to 42): a write failure on "a.docx" is caught and
reported, the batch continues with "b.docx" and the summary, and the
failing file exists, holding a partial prefix of the full content. -/
theorem c2_write_failure_counterexample :
    (run [⟨lit "a.docx", .ok ⟨[lit "hi"], []⟩, some (1, lit "disk full")⟩,
          ⟨lit "b.docx", .ok ⟨[lit "ok"], []⟩, none⟩] (lit "out")).console
      = [errLine (lit "a.docx") (lit "disk full"),
         okLine (lit "b.docx"),
         summaryLine (lit "out")]
    ∧ (run [⟨lit "a.docx", .ok ⟨[lit "hi"], []⟩, some (1, lit "disk full")⟩,
            ⟨lit "b.docx", .ok ⟨[lit "ok"], []⟩, none⟩] (lit "out")).files
        (lit "a.txt")
      = some (lit "=== PARAGRAPHS ===\n")
    ∧ lit "=== PARAGRAPHS ===\n" ≠ output_content ⟨[lit "hi"], []⟩ := by
  decide

/-- C2 (amended): per-file failures never propagate past the single-file
step, but the guard spans the whole per-file body including the write
block, so a filesystem failure while writing an individual output file IS
caught by the per-file guard; since the output file is created before such
a failure, it is left holding a prefix of the full content rather than
never being created. -/
theorem c2_write_failure_isolated (es₁ es₂ : List Entry) (e : Entry)
    (doc : Document) (k : Nat) (msg : Str) (st : RunState)
    (hp : e.parse = .ok doc) (hw : e.writeFail = some (k, msg)) :
    (processBatch (es₁ ++ e :: es₂) st).console
      = st.console ++ es₁.map statusLine
          ++ errLine e.name msg :: es₂.map statusLine
    ∧ (processEntry (processBatch es₁ st) e).files (output_filename e.name)
      = some (((segments doc).take k).flatten)
    ∧ ((segments doc).take k).flatten <+: output_content doc := by
  refine ⟨?_, ?_, ?_⟩
  · rw [processBatch_console]
    have hs : statusLine e = errLine e.name msg := by
      simp [statusLine, hp, hw]
    simp [hs, List.append_assoc]
  · rcases e with ⟨name, parse, wf⟩
    simp only at hp hw
    subst hp
    subst hw
    simp [processEntry, writeFile]
  · exact ⟨((segments doc).drop k).flatten,
      by rw [← List.flatten_append, List.take_append_drop]; rfl⟩

/-- C2 witness: the amended statement at a concrete write-failing entry. -/
theorem c2_write_failure_isolated_witness :
    ((segments ⟨[lit "hi"], []⟩).take 1).flatten
      <+: output_content ⟨[lit "hi"], []⟩ :=
  (c2_write_failure_isolated [] []
    ⟨lit "a.docx", .ok ⟨[lit "hi"], []⟩, some (1, lit "disk full")⟩
    ⟨[lit "hi"], []⟩ 1 (lit "disk full") initState rfl rfl).2.2

/-- C4: for every successfully opened document, the extracted paragraph
sequence is the documents paragraphs in order, each whitespace-trimmed,
with every paragraph whose trimmed text is empty skipped entirely; a
document containing only whitespace paragraphs yields an empty paragraphs
sequence. -/
theorem c4_paragraphs_extraction (doc : Document) :
    full_text doc = (doc.paragraphs.map pyStrip).filter (fun p => !p.isEmpty)
    ∧ ((∀ p ∈ doc.paragraphs, pyStrip p = []) → full_text doc = []) := by
  refine ⟨full_text_eq doc, fun h => ?_⟩
  rw [full_text_eq doc, List.filter_eq_nil_iff]
  intro a ha
  obtain ⟨p, hp, rfl⟩ := List.mem_map.mp ha
  simp [h p hp]

/-- C4 witness: a document whose paragraphs are all whitespace yields an
empty paragraphs sequence. -/
theorem c4_paragraphs_extraction_witness :
    full_text ⟨[lit " ", lit "\t\n"], []⟩ = [] :=
  (c4_paragraphs_extraction ⟨[lit " ", lit "\t\n"], []⟩).2 (by decide)

/-- C5: for every successfully opened document, the extracted table
content is one flat ordered sequence of row-lines over all tables in
order, each row-line being the whitespace-trimmed cell texts joined by the
separator " | ", with table boundaries unmarked; the row with cells "a ",
" b", "c" produces the row-line "a | b | c". -/
theorem c5_tables_extraction (doc : Document) :
    tables_text doc
      = doc.tables.flatten.map
          (fun row => List.intercalate (lit " | ") (row.map pyStrip))
    ∧ tables_text ⟨[], [[[lit "a ", lit " b", lit "c"]]]⟩ = [lit "a | b | c"] :=
  ⟨tables_text_eq doc, by decide⟩

/-- C6: the output content is exactly the PARAGRAPHS header line, the
paragraph texts joined by newline, a blank line, the TABLES header line,
and the row-lines joined by newline, with no final newline appended; with
zero paragraphs and zero rows the content is exactly the two headers with
empty bodies. -/
theorem c6_output_format (doc : Document) :
    output_content doc
      = lit "=== PARAGRAPHS ===" ++ lit "\n"
        ++ List.intercalate (lit "\n") (full_text doc)
        ++ lit "\n" ++ lit "\n"
        ++ lit "=== TABLES ===" ++ lit "\n"
        ++ List.intercalate (lit "\n") (tables_text doc)
    ∧ (full_text doc = [] → tables_text doc = [] →
        output_content doc = lit "=== PARAGRAPHS ===\n\n\n=== TABLES ===\n") := by
  constructor
  · have h1 : lit "=== PARAGRAPHS ===\n"
        = lit "=== PARAGRAPHS ===" ++ lit "\n" := by decide
    have h2 : lit "\n\n=== TABLES ===\n"
        = lit "\n" ++ lit "\n" ++ lit "=== TABLES ===" ++ lit "\n" := by decide
    simp [output_content, segments, h1, h2, List.append_assoc]
  · intro hp ht
    have h : output_content doc
        = lit "=== PARAGRAPHS ===\n" ++ lit "\n\n=== TABLES ===\n" := by
      have hi : List.intercalate (lit "\n") ([] : List Str) = [] := rfl
      simp [output_content, segments, hp, ht, hi]
    rw [h]
    decide

/-- C6 witness: the empty document still produces the two headers with
empty bodies. -/
theorem c6_output_format_witness :
    output_content ⟨[], []⟩ = lit "=== PARAGRAPHS ===\n\n\n=== TABLES ===\n" :=
  (c6_output_format ⟨[], []⟩).2 (by decide) (by decide)

/-- C7: an entry that fails to parse produces one error line holding the
tag, the entry name and the failure description, adds no file to the
destination directory, and the remaining entries are processed exactly as
if the failing entry were absent. -/
theorem c7_parse_failure_isolated (es₁ es₂ : List Entry) (e : Entry)
    (msg : Str) (st : RunState) (hp : e.parse = .error msg) :
    (processBatch (es₁ ++ e :: es₂) st).console
      = st.console ++ es₁.map statusLine
          ++ errLine e.name msg :: es₂.map statusLine
    ∧ (lit "[ERROR]").isPrefixOf (errLine e.name msg) = true
    ∧ e.name <:+: errLine e.name msg
    ∧ msg <:+ errLine e.name msg
    ∧ (processBatch (es₁ ++ e :: es₂) st).files
      = (processBatch (es₁ ++ es₂) st).files := by
  have hlit : lit "[ERROR] Error extracting "
      = lit "[ERROR]" ++ lit " Error extracting " := by decide
  refine ⟨?_, ?_, ?_, ?_, ?_⟩
  · rw [processBatch_console]
    have hs : statusLine e = errLine e.name msg := by
      simp [statusLine, hp]
    simp [hs, List.append_assoc]
  · have hsplit : errLine e.name msg
        = lit "[ERROR]"
          ++ (lit " Error extracting " ++ (e.name ++ (lit ": " ++ msg))) := by
      rw [errLine, hlit]
      simp [List.append_assoc]
    rw [hsplit]
    exact isPrefixOf_append_self _ _
  · exact ⟨lit "[ERROR] Error extracting ", lit ": " ++ msg,
      by simp [errLine, List.append_assoc]⟩
  · exact ⟨lit "[ERROR] Error extracting " ++ e.name ++ lit ": ",
      by simp [errLine, List.append_assoc]⟩
  · have h1 : processBatch (es₁ ++ e :: es₂) st
        = processBatch es₂ (processEntry (processBatch es₁ st) e) := by
      rw [show es₁ ++ e :: es₂ = (es₁ ++ [e]) ++ es₂ by simp,
        processBatch_append_eq, processBatch_append_eq]
      rfl
    have hfe : (processEntry (processBatch es₁ st) e).files
        = (processBatch es₁ st).files := by
      rcases e with ⟨name, parse, wf⟩
      simp only at hp
      subst hp
      rfl
    rw [h1, processBatch_append_eq]
    exact processBatch_files_congr es₂ _ _ hfe

/-- C7 witness: a concrete parse failure is reported with the literal
error tag. -/
theorem c7_parse_failure_isolated_witness :
    (lit "[ERROR]").isPrefixOf
      (errLine (lit "bad.docx") (lit "broken zip")) = true :=
  (c7_parse_failure_isolated [] []
    ⟨lit "bad.docx", .error (lit "broken zip"), none⟩
    (lit "broken zip") initState rfl).2.1

/-- C8: exactly the entries of the source directory whose names end with
the case-sensitive suffix ".docx" are selected, and an entry without that
suffix leaves the whole run unchanged: no status line and no output file
for it. -/
theorem c8_selection (listing : List Entry) (dest : Str) :
    (∀ e : Entry,
      e ∈ docx_files listing
        ↔ e ∈ listing ∧ docxSuffix.isSuffixOf e.name = true)
    ∧ (∀ (es₁ es₂ : List Entry) (e : Entry),
        docxSuffix.isSuffixOf e.name = false →
          run (es₁ ++ e :: es₂) dest = run (es₁ ++ es₂) dest) := by
  constructor
  · intro e
    simp [docx_files, List.mem_filter]
  · intro es₁ es₂ e he
    have hd : docx_files (es₁ ++ e :: es₂) = docx_files (es₁ ++ es₂) := by
      simp [docx_files, List.filter_append, List.filter_cons, he]
    simp [run, runFrom, hd]

/-- C8 witness: an entry named with the upper-case suffix ".DOCX" is
ignored silently, leaving the run identical. -/
theorem c8_selection_witness :
    run [⟨lit "notes.DOCX", .ok ⟨[], []⟩, none⟩] (lit "out")
      = run [] (lit "out") :=
  (c8_selection [] (lit "out")).2 [] []
    ⟨lit "notes.DOCX", .ok ⟨[], []⟩, none⟩ (by decide)

/-- C9: each selected entry produces exactly one status line, so the
number of printed OK plus ERROR lines equals the number of entries passing
the ".docx" suffix filter; the summary line is not a status line. -/
theorem c9_status_line_count (listing : List Entry) (dest : Str) :
    (run listing dest).console.countP isStatusLine
      = (docx_files listing).length := by
  have hok : ∀ name : Str, isStatusLine (okLine name) = true := by
    intro name
    have hlit : lit "[OK] Extracted: "
        = lit "[OK]" ++ lit " Extracted: " := by decide
    simp [isStatusLine, okLine, hlit, List.append_assoc, isPrefixOf_append_self]
  have herr : ∀ name msg : Str, isStatusLine (errLine name msg) = true := by
    intro name msg
    have hlit : lit "[ERROR] Error extracting "
        = lit "[ERROR]" ++ lit " Error extracting " := by decide
    simp [isStatusLine, errLine, hlit, List.append_assoc, isPrefixOf_append_self]
  have hstat : ∀ e : Entry, isStatusLine (statusLine e) = true := by
    intro e
    rcases e with ⟨name, parse, wf⟩
    cases parse with
    | error msg => simpa [statusLine] using herr name msg
    | ok doc =>
      cases wf with
      | none => simpa [statusLine] using hok name
      | some p =>
        rcases p with ⟨k, msg⟩
        simpa [statusLine] using herr name msg
  have hsum : isStatusLine (summaryLine dest) = false := by
    have h1 : summaryLine dest
        = '\n' :: (lit "All extracted files saved to: " ++ dest) := by
      have h2 : lit "\nAll extracted files saved to: "
          = '\n' :: lit "All extracted files saved to: " := by decide
      simp [summaryLine, h2]
    rw [h1]
    simp [isStatusLine, List.isPrefixOf]
  have hcount : (List.map statusLine (docx_files listing)).countP isStatusLine
      = (docx_files listing).length := by
    have hall : ∀ a ∈ List.map statusLine (docx_files listing),
        isStatusLine a := by
      intro a ha
      obtain ⟨e, _, rfl⟩ := List.mem_map.mp ha
      exact hstat e
    rw [List.countP_eq_length.mpr hall, List.length_map]
  have hcons : (run listing dest).console
      = List.map statusLine (docx_files listing) ++ [summaryLine dest] := by
    simp [run, runFrom, processBatch_console, initState]
  rw [hcons]
  simp [List.countP_append, List.countP_cons, hsum, hcount]

/-- C10: the content written for a document is a deterministic function of
its paragraphs and tables, and a second run over unchanged inputs leaves
every output file byte-identical to the first run. -/
theorem c10_rerun_idempotent (listing : List Entry) (dest : Str) (n : Str)
    (doc₁ doc₂ : Document)
    (hp : doc₁.paragraphs = doc₂.paragraphs)
    (ht : doc₁.tables = doc₂.tables) :
    output_content doc₁ = output_content doc₂
    ∧ (runFrom listing dest (run listing dest)).files n
      = (run listing dest).files n := by
  constructor
  · have h : doc₁ = doc₂ := by
      cases doc₁
      cases doc₂
      simp_all
    rw [h]
  · have h1 : (runFrom listing dest (run listing dest)).files n
        = (processBatch (docx_files listing) (run listing dest)).files n := rfl
    have h2 : (run listing dest).files n
        = (processBatch (docx_files listing) initState).files n := rfl
    cases hW : lookupLast ((docx_files listing).filterMap entryWrite) n with
    | some c =>
      rw [h1, processBatch_files, hW, h2, processBatch_files, hW]
    | none =>
      rw [h1, processBatch_files, hW]

/-- C10 witness: rerunning a concrete one-file batch reproduces the output
file exactly. -/
theorem c10_rerun_idempotent_witness :
    output_content ⟨[lit "q"], []⟩ = output_content ⟨[lit "q"], []⟩
    ∧ (runFrom [⟨lit "a.docx", .ok ⟨[lit "q"], []⟩, none⟩] (lit "out")
          (run [⟨lit "a.docx", .ok ⟨[lit "q"], []⟩, none⟩] (lit "out"))).files
        (lit "a.txt")
      = (run [⟨lit "a.docx", .ok ⟨[lit "q"], []⟩, none⟩] (lit "out")).files
        (lit "a.txt") :=
  c10_rerun_idempotent [⟨lit "a.docx", .ok ⟨[lit "q"], []⟩, none⟩]
    (lit "out") (lit "a.txt") ⟨[lit "q"], []⟩ ⟨[lit "q"], []⟩ rfl rfl

end StatQ
